import Mathlib

/-!
# Verification of the panda-rs callback / guest-memory core

A shallow embedding, in Lean 4, of the parts of the `panda-rs` plugin
framework covered by the specification claims:

* the guest value codec (`GuestType` impls for numeric primitives, arrays and
  the macro-generated struct codec) together with the `std::alloc::Layout`
  arithmetic it relies on (`panda-rs/src/guest_ptr/impls.rs`,
  `panda-macros/src/guest_type/struct_impl.rs`);
* the lazily-cached typed guest pointer `GuestPtr<T>`
  (`panda-rs/src/guest_ptr.rs`);
* the PPP ("plugin-to-plugin") callback export sites and their return-value
  fold strategies (`panda-rs/src/callbacks/export.rs`);
* the closure callback registry (`panda-rs/src/callbacks/closure.rs`) and the
  PPP closure registry (`panda-rs/src/callbacks/ppp_closures.rs`);
* the per-thread FIFO queue of syscall injectors
  (`panda-rs/src/syscall_injection.rs`, `pinned_queue.rs`).

Effectful native calls (memory transfers, native callback (un)registration,
closure drops) are modelled either as oracle parameters or as explicit event
traces, so that every definition is executable and each theorem can be
evaluated on concrete inputs.
-/

namespace PandaRs

/-- `panda::GuestReadFail` — opaque, reason-less guest-read failure marker. -/
inductive GuestReadFail where
  | mk
  deriving DecidableEq, Repr

/-- `panda::GuestWriteFail` — opaque, reason-less guest-write failure marker. -/
inductive GuestWriteFail where
  | mk
  deriving DecidableEq, Repr

/-- `panda::enums::MemRWStatus` — tri-state memory transaction status plus the
`Unknown`/`GenericErrorRet` sentinels, as declared in `enums.rs`. -/
inductive MemRWStatus where
  | Unknown
  | GenericErrorRet
  | MemTxOk
  | MemTxError
  | MemTxDecodeError
  deriving DecidableEq, Repr

/-- `panda::enums::Endian` — guest byte order. -/
inductive Endian where
  | Big
  | Little
  deriving DecidableEq, Repr

deriving instance DecidableEq for Except

/-! ## `std::alloc::Layout` arithmetic

The guest codec computes composite layouts with `std::alloc::Layout`
(`from_size_align`, `extend`, `pad_to_align`), and `guest_ptr/impls.rs`
duplicates `padding_needed_for`/`padded_size` as free functions for arrays.
`usize` is modelled as `Nat` with explicit wrapping at `2^64` where the source
uses wrapping arithmetic. -/

namespace Alloc

def USIZE : Nat := 2 ^ 64

def ISIZE_MAX : Nat := 2 ^ 63 - 1

/-- `usize::wrapping_add`. -/
def wrappingAdd (a b : Nat) : Nat := (a + b) % USIZE

/-- `usize::wrapping_sub`. -/
def wrappingSub (a b : Nat) : Nat := (a % USIZE + (USIZE - b % USIZE)) % USIZE

/-- Bitwise complement `!a` on `usize` (two's complement: `2^64 - 1 - a`). -/
def usizeNot (a : Nat) : Nat := USIZE - 1 - a % USIZE

/-- `usize::is_power_of_two`: true iff exactly one bit of `n` is set, here via
the classic single-bit mask test `n != 0 && n & (n - 1) == 0`. -/
def isPowerOfTwo (n : Nat) : Bool := n != 0 && Nat.land n (n - 1) == 0

/-- `std::alloc::Layout`: a (byte size, alignment) pair. -/
structure Layout where
  size : Nat
  align : Nat
  deriving DecidableEq, Repr

/-- `Layout::from_size_align(size, align)`: requires a power-of-two alignment
and `size <= isize::MAX - (align - 1)`; errors are modelled as `none`. -/
def fromSizeAlign (size align : Nat) : Option Layout :=
  if !isPowerOfTwo align then none
  else if size > ISIZE_MAX - (align - 1) then none
  else some ⟨size, align⟩

/-- `Layout::padding_needed_for(&self, align)` — also duplicated verbatim as
the free function `padding_needed_for(layout, align)` in `guest_ptr/impls.rs`:
```text
let len_rounded_up = len.wrapping_add(align).wrapping_sub(1) & !align.wrapping_sub(1);
len_rounded_up.wrapping_sub(len)
``` -/
def paddingNeededFor (l : Layout) (align : Nat) : Nat :=
  let len := l.size
  let lenRoundedUp :=
    Nat.land (wrappingSub (wrappingAdd len align) 1) (usizeNot (wrappingSub align 1))
  wrappingSub lenRoundedUp len

/-- `usize::checked_add`. -/
def checkedAdd (a b : Nat) : Option Nat :=
  if a + b < USIZE then some (a + b) else none

/-- `Layout::extend(&self, next)`: place `next` after `self` with padding up to
`next`'s alignment, returning the combined layout and the field offset. -/
def extend (l next : Layout) : Option (Layout × Nat) := do
  let newAlign := max l.align next.align
  let pad := paddingNeededFor l next.align
  let offset ← checkedAdd l.size pad
  let newSize ← checkedAdd offset next.size
  let layout ← fromSizeAlign newSize newAlign
  pure (layout, offset)

/-- `Layout::pad_to_align(&self)`: round the size up to a multiple of the
alignment.  (The `from_size_align(..).unwrap()` in the source cannot fail for
a well-formed layout, so the result is total.) -/
def padToAlign (l : Layout) : Layout :=
  ⟨l.size + paddingNeededFor l l.align, l.align⟩

/-- `padded_size(layout)` from `guest_ptr/impls.rs`: the array stride of an
element layout. -/
def paddedSize (l : Layout) : Nat :=
  l.size + paddingNeededFor l l.align

/-- `repeat(layout, n)` from `guest_ptr/impls.rs`: the layout of a guest array
of `n` elements (`none` models the `.expect` panics on overflow/invalid). -/
def repeatLayout (l : Layout) (n : Nat) : Option Layout := do
  let allocSize ← checkedMul (paddedSize l) n
  fromSizeAlign allocSize l.align
where
  /-- `usize::checked_mul`. -/
  checkedMul (a b : Nat) : Option Nat :=
    if a * b < USIZE then some (a * b) else none

/-- The clean arithmetic the masked code implements: `len` rounded up to the
next multiple of `align`. -/
def roundUp (len align : Nat) : Nat :=
  (len + align - 1) / align * align

theorem isPowerOfTwo_two_pow (k : Nat) : isPowerOfTwo (2 ^ k) = true := by
  have hland : Nat.land (2 ^ k) (2 ^ k - 1) = 0 := by
    apply Nat.eq_of_testBit_eq
    intro i
    show Nat.testBit (2 ^ k &&& (2 ^ k - 1)) i = _
    rw [Nat.testBit_and, Nat.testBit_two_pow, Nat.testBit_two_pow_sub_one,
      Nat.zero_testBit]
    by_cases h : k = i <;> simp [h]
  have hpos : (2 : Nat) ^ k ≠ 0 := Nat.pos_iff_ne_zero.mp (Nat.pos_pow_of_pos k (by norm_num))
  simp [isPowerOfTwo, hland, hpos]

theorem wrappingAdd_sub_one (a b : Nat) (h : 1 ≤ a + b) :
    wrappingSub (wrappingAdd a b) 1 = (a + b - 1) % USIZE := by
  have hU : 1 < USIZE := by norm_num [USIZE]
  have hU1 : 1 ≤ USIZE := le_of_lt hU
  have h1 : (1 : Nat) % USIZE = 1 := Nat.mod_eq_of_lt hU
  unfold wrappingSub wrappingAdd
  rw [h1, Nat.mod_mod_of_dvd _ dvd_rfl, Nat.mod_add_mod]
  have hsplit : a + b + (USIZE - 1) = (a + b - 1) + USIZE := by omega
  rw [hsplit, Nat.add_mod_right]

/-- The heart of the padding computation: masking off the low `k` bits of a
`usize` value rounds it down to a multiple of `2^k`. -/
theorem land_high_mask (x k : Nat) (hk : k ≤ 64) (hx : x < USIZE) :
    Nat.land x (USIZE - 2 ^ k) = x / 2 ^ k * 2 ^ k := by
  have hsub : USIZE - 2 ^ k = (2 ^ (64 - k) - 1) <<< k := by
    rw [Nat.shiftLeft_eq, Nat.sub_mul, one_mul, ← Nat.pow_add, USIZE]
    congr 2
    omega
  have hdiv : x / 2 ^ k * 2 ^ k = (x >>> k) <<< k := by
    rw [Nat.shiftRight_eq_div_pow, Nat.shiftLeft_eq]
  rw [hsub, hdiv]
  apply Nat.eq_of_testBit_eq
  intro i
  show Nat.testBit (Nat.land _ _) i = _
  rw [Nat.land]
  simp only [Nat.testBit_and, Nat.testBit_shiftLeft, Nat.testBit_shiftRight,
    Nat.testBit_two_pow_sub_one]
  by_cases hik : k ≤ i
  · have hki : k + (i - k) = i := by omega
    rw [hki]
    by_cases hi64 : i < 64
    · have h1 : i - k < 64 - k := by omega
      simp [hik, h1, Bool.and_comm]
    · have hxi : x.testBit i = false :=
        Nat.testBit_lt_two_pow
          (lt_of_lt_of_le hx (Nat.pow_le_pow_right (by norm_num) (by omega)))
      have h1 : ¬(i - k < 64 - k) := by omega
      simp [hxi, hik, h1]
  · simp [hik]

theorem le_roundUp (x a : Nat) (ha : 0 < a) : x ≤ roundUp x a := by
  have h1 := Nat.div_add_mod (x + a - 1) a
  have h2 := Nat.mod_lt (x + a - 1) ha
  unfold roundUp
  rw [Nat.mul_comm]
  omega

theorem roundUp_lt_add (x a : Nat) (ha : 0 < a) : roundUp x a < x + a := by
  have h1 := Nat.div_mul_le_self (x + a - 1) a
  unfold roundUp
  omega

theorem roundUp_mod (x a : Nat) : roundUp x a % a = 0 := by
  unfold roundUp
  exact Nat.mul_mod_left _ _

theorem wrappingSub_eq_sub (a b : Nat) (hb : b ≤ a) (ha : a < USIZE) :
    wrappingSub a b = a - b := by
  have hbU : b < USIZE := lt_of_le_of_lt hb ha
  unfold wrappingSub
  rw [Nat.mod_eq_of_lt ha, Nat.mod_eq_of_lt hbU]
  have hsplit : a + (USIZE - b) = (a - b) + USIZE := by omega
  rw [hsplit, Nat.add_mod_right, Nat.mod_eq_of_lt (by omega)]

/-- The masked wrapping computation in `padding_needed_for` equals the plain
round-up-to-alignment arithmetic, for any power-of-two alignment and any
non-overflowing size. -/
theorem paddingNeededFor_eq (l : Layout) (k : Nat) (hk : k ≤ 63)
    (hs : l.size + 2 ^ k ≤ USIZE) :
    paddingNeededFor l (2 ^ k) = roundUp l.size (2 ^ k) - l.size := by
  have ha : (0 : Nat) < 2 ^ k := Nat.pos_pow_of_pos k (by norm_num)
  have haU : (2 : Nat) ^ k < USIZE := by
    have : (2 : Nat) ^ k ≤ 2 ^ 63 := Nat.pow_le_pow_right (by norm_num) hk
    have h63 : (2 : Nat) ^ 63 < 2 ^ 64 := by norm_num
    unfold USIZE
    omega
  have hx : l.size + 2 ^ k - 1 < USIZE := by omega
  -- the rounded-up length
  have h1 : wrappingSub (wrappingAdd l.size (2 ^ k)) 1 = l.size + 2 ^ k - 1 := by
    rw [wrappingAdd_sub_one _ _ (by omega), Nat.mod_eq_of_lt hx]
  -- the mask `!align.wrapping_sub(1)`
  have h2 : wrappingSub (2 ^ k) 1 = 2 ^ k - 1 := wrappingSub_eq_sub _ _ (by omega) haU
  have h3 : usizeNot (2 ^ k - 1) = USIZE - 2 ^ k := by
    unfold usizeNot
    rw [Nat.mod_eq_of_lt (by omega)]
    omega
  have h4 : Nat.land (l.size + 2 ^ k - 1) (USIZE - 2 ^ k)
      = roundUp l.size (2 ^ k) :=
    land_high_mask _ k (by omega) hx
  have hR1 : l.size ≤ roundUp l.size (2 ^ k) := le_roundUp _ _ ha
  have hR2 : roundUp l.size (2 ^ k) < USIZE :=
    lt_of_lt_of_le (roundUp_lt_add _ _ ha) hs
  simp only [paddingNeededFor]
  rw [h1, h2, h3, h4, wrappingSub_eq_sub _ _ hR1 hR2]

theorem max_two_pow (a b : Nat) : max (2 ^ a) (2 ^ b) = 2 ^ max a b := by
  rcases le_total a b with h | h <;>
    simp [Nat.max_eq_right, Nat.max_eq_left, h,
      Nat.pow_le_pow_right (show 1 ≤ 2 by norm_num) h]

/-- The sequential-placement step the composite codec performs: `extend`
succeeds on power-of-two-aligned, small-enough layouts and produces exactly
the C struct layout rule (offset = size rounded up to the field's alignment,
alignment = max). -/
theorem extend_eq (l next : Layout) (kl kn : Nat) (_hkl : kl ≤ 63) (hkn : kn ≤ 63)
    (hla : l.align = 2 ^ kl) (hna : next.align = 2 ^ kn)
    (hb : l.size + next.size + l.align + 2 * next.align ≤ ISIZE_MAX) :
    extend l next
      = some (⟨roundUp l.size next.align + next.size, max l.align next.align⟩,
          roundUp l.size next.align) := by
  have hIU : ISIZE_MAX < USIZE := by norm_num [ISIZE_MAX, USIZE]
  have hna0 : 0 < next.align := by rw [hna]; positivity
  have hla0 : 0 < l.align := by rw [hla]; positivity
  have hs : l.size + 2 ^ kn ≤ USIZE := by rw [← hna]; omega
  have hpad : paddingNeededFor l next.align = roundUp l.size next.align - l.size := by
    rw [hna]
    exact paddingNeededFor_eq l kn hkn hs
  have hRle : l.size ≤ roundUp l.size next.align := le_roundUp _ _ hna0
  have hRlt : roundUp l.size next.align < l.size + next.align := roundUp_lt_add _ _ hna0
  have hmaxle : max l.align next.align ≤ l.align + next.align :=
    max_le (Nat.le_add_right _ _) (Nat.le_add_left _ _)
  have hmax : max l.align next.align = 2 ^ max kl kn := by
    rw [hla, hna, max_two_pow]
  have hpp : l.size + paddingNeededFor l next.align = roundUp l.size next.align := by
    rw [hpad]
    omega
  have hc1 : roundUp l.size next.align < USIZE := by omega
  have hc2 : roundUp l.size next.align + next.size < USIZE := by omega
  have hc3 : ¬(ISIZE_MAX - (2 ^ max kl kn - 1)
      < roundUp l.size next.align + next.size) := by
    rw [← hmax]
    omega
  simp [extend, checkedAdd, fromSizeAlign, hpp, hmax, isPowerOfTwo_two_pow,
    hc1, hc2, hc3]

/-- `guest_layout()` of a numeric primitive (`impl_for_num!` in
`guest_ptr/impls.rs`): `Layout::from_size_align(size_of::<$ty>(), ALIGN).ok()`,
where `ALIGN` is the per-type constant from `guest_align.rs`. -/
def numGuestLayout (size align : Nat) : Option Layout :=
  fromSizeAlign size align

/-- The `guest_layout()` body emitted by `#[derive(GuestType)]` for a struct
(`struct_layout` in `panda-macros/src/guest_type/struct_impl.rs`):
`Some(from_size_align(0,1).ok()? .extend(field_layout?).ok()?.0 ... .pad_to_align())`. -/
def structLayout (fields : List (Option Layout)) : Option Layout := do
  let base ← fromSizeAlign 0 1
  let folded ← fields.foldlM (fun acc ofl => do
      let fl ← ofl
      let (l, _offset) ← extend acc fl
      pure l) base
  pure (padToAlign folded)

/-- The C placement rule the spec states, in plain arithmetic: the next field
goes at the current size rounded up to the field's alignment; the composite
alignment is the running max of the field alignments. -/
def cExtend (acc f : Layout) : Layout :=
  ⟨roundUp acc.size f.align + f.size, max acc.align f.align⟩

/-- Spec-side composite layout: sequential placement from a zero-size,
unit-aligned layout, then trailing padding to the composite alignment. -/
def cStructLayout (fields : List Layout) : Layout :=
  let pre := fields.foldl cExtend ⟨0, 1⟩
  ⟨roundUp pre.size pre.align, pre.align⟩

/-- The inter-field padding inserted before each field by sequential placement
starting from `acc`. -/
def cPaddingsFrom (acc : Layout) : List Layout → List Nat
  | [] => []
  | f :: rest =>
    (roundUp acc.size f.align - acc.size) :: cPaddingsFrom (cExtend acc f) rest

/-- The inter-field padding amounts of a composite. -/
def cPaddings (fields : List Layout) : List Nat :=
  cPaddingsFrom ⟨0, 1⟩ fields

/-- Trailing padding added by the final `pad_to_align`. -/
def cTrailingPad (fields : List Layout) : Nat :=
  let pre := fields.foldl cExtend ⟨0, 1⟩
  roundUp pre.size pre.align - pre.size

theorem cFold_align_pow2 (fields : List Layout) (acc : Layout)
    (hacc : ∃ k ≤ 63, acc.align = 2 ^ k)
    (hflds : ∀ f ∈ fields, ∃ k ≤ 63, f.align = 2 ^ k) :
    ∃ k ≤ 63, (fields.foldl cExtend acc).align = 2 ^ k := by
  induction fields generalizing acc with
  | nil => exact hacc
  | cons f rest ih =>
    obtain ⟨ka, hka, hae⟩ := hacc
    obtain ⟨kf, hkf, hfe⟩ := hflds f (by simp)
    refine ih (cExtend acc f) ?_ (fun g hg => hflds g (by simp [hg]))
    exact ⟨max ka kf, max_le hka hkf, by simp [cExtend, hae, hfe, max_two_pow]⟩

theorem cFold_align_pos (fields : List Layout) (acc : Layout)
    (hacc : 0 < acc.align) : 0 < (fields.foldl cExtend acc).align := by
  induction fields generalizing acc with
  | nil => exact hacc
  | cons f rest ih =>
    exact ih (cExtend acc f) (lt_of_lt_of_le hacc (by simp [cExtend]))

theorem cFold_bound (fields : List Layout) (acc : Layout)
    (hflds : ∀ f ∈ fields, 0 < f.align) :
    (fields.foldl cExtend acc).size + (fields.foldl cExtend acc).align
      ≤ acc.size + acc.align + (fields.map (fun f => f.size + 2 * f.align)).sum := by
  induction fields generalizing acc with
  | nil => simp
  | cons f rest ih =>
    have hf0 : 0 < f.align := hflds f (by simp)
    have h1 : roundUp acc.size f.align < acc.size + f.align := roundUp_lt_add _ _ hf0
    have h2 : max acc.align f.align ≤ acc.align + f.align :=
      max_le (Nat.le_add_right _ _) (Nat.le_add_left _ _)
    have hrec := ih (cExtend acc f) (fun g hg => hflds g (by simp [hg]))
    have h3 : (cExtend acc f).size + (cExtend acc f).align
        ≤ acc.size + acc.align + (f.size + 2 * f.align) := by
      simp only [cExtend]
      omega
    simp only [List.foldl_cons, List.map_cons, List.sum_cons]
    omega

theorem cFold_size_decomp (fields : List Layout) (acc : Layout)
    (hflds : ∀ f ∈ fields, 0 < f.align) :
    (fields.foldl cExtend acc).size
      = acc.size + ((fields.map Layout.size).sum + (cPaddingsFrom acc fields).sum) := by
  induction fields generalizing acc with
  | nil => simp [cPaddingsFrom]
  | cons f rest ih =>
    have hf0 : 0 < f.align := hflds f (by simp)
    have h1 : acc.size ≤ roundUp acc.size f.align := le_roundUp _ _ hf0
    have hrec := ih (cExtend acc f) (fun g hg => hflds g (by simp [hg]))
    simp only [List.foldl_cons, List.map_cons, List.sum_cons, cPaddingsFrom,
      List.sum_cons] at *
    rw [hrec]
    simp only [cExtend]
    omega

/-- The monadic layout fold of the derived `guest_layout()` computes exactly
the clean sequential-placement fold, whenever the fields are power-of-two
aligned and everything fits. -/
theorem structFold_eq (fields : List Layout) (acc : Layout)
    (hacc : ∃ k ≤ 63, acc.align = 2 ^ k)
    (hflds : ∀ f ∈ fields, ∃ k ≤ 63, f.align = 2 ^ k)
    (hb : acc.size + acc.align
        + (fields.map (fun f => f.size + 2 * f.align)).sum ≤ ISIZE_MAX) :
    (fields.map some).foldlM (fun acc ofl => do
        let fl ← ofl
        let (l, _offset) ← extend acc fl
        pure l) acc
      = some (fields.foldl cExtend acc) := by
  induction fields generalizing acc with
  | nil => simp
  | cons f rest ih =>
    obtain ⟨ka, hka, hae⟩ := hacc
    obtain ⟨kf, hkf, hfe⟩ := hflds f (by simp)
    have hf0 : 0 < f.align := by rw [hfe]; positivity
    have ha0 : 0 < acc.align := by rw [hae]; positivity
    have hsum0 : 0 ≤ (rest.map (fun f => f.size + 2 * f.align)).sum := Nat.zero_le _
    have hbf : acc.size + f.size + acc.align + 2 * f.align ≤ ISIZE_MAX := by
      simp only [List.map_cons, List.sum_cons] at hb
      omega
    have hext := extend_eq acc f ka kf hka hkf hae hfe hbf
    have h1 : roundUp acc.size f.align < acc.size + f.align := roundUp_lt_add _ _ hf0
    have h2 : max acc.align f.align ≤ acc.align + f.align :=
      max_le (Nat.le_add_right _ _) (Nat.le_add_left _ _)
    have hb' : (cExtend acc f).size + (cExtend acc f).align
        + (rest.map (fun f => f.size + 2 * f.align)).sum ≤ ISIZE_MAX := by
      simp only [List.map_cons, List.sum_cons] at hb
      simp only [cExtend]
      omega
    have hacc' : ∃ k ≤ 63, (cExtend acc f).align = 2 ^ k :=
      ⟨max ka kf, max_le hka hkf, by simp [cExtend, hae, hfe, max_two_pow]⟩
    have hrec := ih (cExtend acc f) hacc'
      (fun g hg => hflds g (by simp [hg])) hb'
    simp only [List.map_cons, List.foldlM_cons, List.foldl_cons, hext,
      Option.bind_eq_bind, Option.some_bind]
    exact hrec

theorem padToAlign_eq (l : Layout) (k : Nat) (hk : k ≤ 63) (hla : l.align = 2 ^ k)
    (hs : l.size + l.align ≤ USIZE) :
    padToAlign l = ⟨roundUp l.size l.align, l.align⟩ := by
  have ha0 : 0 < l.align := by rw [hla]; positivity
  have hs' : l.size + 2 ^ k ≤ USIZE := by rw [← hla]; exact hs
  have hpad : paddingNeededFor l l.align = roundUp l.size l.align - l.size := by
    rw [hla]
    exact paddingNeededFor_eq l k hk hs'
  have hle : l.size ≤ roundUp l.size l.align := le_roundUp _ _ ha0
  unfold padToAlign
  rw [hpad]
  congr 1
  omega

end Alloc

/-! ## Guest value codec (`guest_ptr/impls.rs`, `guest_type/struct_impl.rs`)

Native memory transfers are oracle parameters: `vmWrite`/`readT` stand for
`panda_virtual_memory_write_external` / `T::read_from_guest(cpu, ·)` (or their
physical counterparts — the virtual and physical codec paths are textually
identical up to which native transfer the oracle denotes).  The oracles thread
a state `σ` so that the trace of attempted transfers is observable. -/

namespace Codec

/-- `<$ty>::to_le_bytes` for a `width`-byte integer value. -/
def toLeBytes (width val : Nat) : List Nat :=
  (List.range width).map fun i => val / 256 ^ i % 256

/-- Byte conversion according to `ARCH_ENDIAN`. -/
def toBytes : Endian → Nat → Nat → List Nat
  | .Little, w, v => toLeBytes w v
  | .Big, w, v => (toLeBytes w v).reverse

/-- `write_to_guest` of a numeric primitive (`impl_for_num!` in
`guest_ptr/impls.rs`): converts the value to bytes in the guest byte order,
calls `virtual_memory_write(cpu, ptr, &bytes)` — and DISCARDS the returned
`MemRWStatus`, returning `Ok(())` unconditionally.  (`write_to_guest_phys` is
identical with `physical_memory_write`.) -/
def numWriteToGuest {σ : Type} (vmWrite : Nat → List Nat → σ → σ × MemRWStatus)
    (endian : Endian) (width val ptr : Nat) (s : σ) :
    σ × Except GuestWriteFail Unit :=
  let bytes := toBytes endian width val
  let (s', _status) := vmWrite ptr bytes s
  (s', Except.ok ())

/-- The `write_to_guest` body emitted by `#[derive(GuestType)]`
(`guest_type/struct_impl.rs`): starting from `Layout::from_size_align(0, 1)`,
each field's offset is obtained by `layout.extend(field_layout).unwrap()` and
the field is written at `ptr + offset` with `?` propagation, in declaration
order.  A field is a (layout, write-at-address) pair; `none` models the
`.unwrap()` panic on an invalid layout. -/
def structWriteToGuest {σ : Type}
    (fields : List (Alloc.Layout × (Nat → σ → σ × Except GuestWriteFail Unit)))
    (ptr : Nat) (s : σ) : Option (σ × Except GuestWriteFail Unit) :=
  go ⟨0, 1⟩ fields s
where
  go : Alloc.Layout →
      List (Alloc.Layout × (Nat → σ → σ × Except GuestWriteFail Unit)) → σ →
      Option (σ × Except GuestWriteFail Unit)
  | _, [], s => some (s, Except.ok ())
  | layout, (fl, w) :: rest, s =>
    match Alloc.extend layout fl with
    | none => none
    | some (layout', offset) =>
      match w (ptr + offset) s with
      | (s', Except.error e) => some (s', Except.error e)
      | (s', Except.ok ()) => go layout' rest s'

/-- `read_from_guest` for `[T; N]` (`guest_ptr/impls.rs`): the element stride
is `padded_size(T::guest_layout().expect(..))` (`none` models that panic); the
iterator `(ptr..).step_by(padded_size).take(N).filter_map(|p| read(p).ok())`
attempts a read at all `N` element addresses, keeps the successes, and
`array_init::from_iter(..).ok_or(GuestReadFail)` fails unless all `N`
succeeded.  (`read_from_guest_phys` is identical up to the leaf read.) -/
def arrayReadFromGuest {σ α : Type} (readT : Nat → σ → σ × Except GuestReadFail α)
    (elemLayout : Option Alloc.Layout) (ptr N : Nat) (s : σ) :
    Option (σ × Except GuestReadFail (List α)) :=
  elemLayout.map fun layout =>
    let ps := Alloc.paddedSize layout
    let (s', results) := (List.range N).foldl
      (fun (acc : σ × List (Except GuestReadFail α)) i =>
        let (s', r) := readT (ptr + ps * i) acc.1
        (s', acc.2 ++ [r]))
      (s, [])
    let oks := results.filterMap (fun r => r.toOption)
    (s', if oks.length = N then Except.ok oks else Except.error GuestReadFail.mk)

theorem recordReadFold {α : Type} (ids : List Nat) (addr : Nat → Nat)
    (f : Nat → Except GuestReadFail α) (s : List Nat)
    (rs : List (Except GuestReadFail α)) :
    ids.foldl
      (fun (acc : List Nat × List (Except GuestReadFail α)) i =>
        let (s', r) := (fun a t => (t ++ [a], f a)) (addr i) acc.1
        (s', acc.2 ++ [r]))
      (s, rs)
      = (s ++ ids.map addr, rs ++ ids.map (fun i => f (addr i))) := by
  induction ids generalizing s rs with
  | nil => simp
  | cons i rest ih => simpa using ih (s ++ [addr i]) (rs ++ [f (addr i)])

theorem filterMap_toOption_length_iff {α : Type}
    (rs : List (Except GuestReadFail α)) :
    (rs.filterMap (fun r => r.toOption)).length = rs.length
      ↔ ∀ r ∈ rs, r ≠ Except.error GuestReadFail.mk := by
  rw [List.filterMap_length_eq_length]
  apply forall_congr'
  intro r
  apply imp_congr_right
  intro _
  cases r with
  | ok a => simp [Except.toOption]
  | error e => cases e; simp [Except.toOption]

end Codec

/-- **C6**: for every composite GuestType whose fields all have fixed layouts,
the derived `guest_layout()` sequentially extends a zero-size, unit-aligned
layout with each field's layout in declaration order and pads the result to
the composite's alignment (= the clean C placement rule `cStructLayout`);
consequently `size % align == 0` and the size is the sum of the field sizes
plus the computed inter-field and trailing padding.  For a struct of a `u8`
followed by a `u32` the layout is `(size 8, align 4)` with 3 bytes of padding
inserted before the `u32`, which sits at offset 4. -/
theorem C6_composite_guest_layout (fields : List Alloc.Layout)
    (hflds : ∀ f ∈ fields, ∃ k ≤ 63, f.align = 2 ^ k)
    (hb : 1 + (fields.map (fun f => f.size + 2 * f.align)).sum ≤ Alloc.ISIZE_MAX) :
    Alloc.structLayout (fields.map some) = some (Alloc.cStructLayout fields)
    ∧ (Alloc.cStructLayout fields).size % (Alloc.cStructLayout fields).align = 0
    ∧ (Alloc.cStructLayout fields).size
        = (fields.map Alloc.Layout.size).sum
          + ((Alloc.cPaddings fields).sum + Alloc.cTrailingPad fields)
    ∧ Alloc.structLayout [Alloc.numGuestLayout 1 1, Alloc.numGuestLayout 4 4]
        = some ⟨8, 4⟩
    ∧ (Alloc.extend ⟨1, 1⟩ ⟨4, 4⟩).map Prod.snd = some 4 := by
  have hflds0 : ∀ f ∈ fields, 0 < f.align := by
    intro f hf
    obtain ⟨k, _, he⟩ := hflds f hf
    rw [he]
    positivity
  have hIU : Alloc.ISIZE_MAX < Alloc.USIZE := by
    norm_num [Alloc.ISIZE_MAX, Alloc.USIZE]
  have hfold := Alloc.structFold_eq fields ⟨0, 1⟩ ⟨0, by norm_num, rfl⟩ hflds
    (by simpa using hb)
  have halignpos : 0 < (fields.foldl Alloc.cExtend ⟨0, 1⟩).align :=
    Alloc.cFold_align_pos _ _ (by norm_num)
  have hbound := Alloc.cFold_bound fields ⟨0, 1⟩ hflds0
  obtain ⟨kp, hkp, hpe⟩ :=
    Alloc.cFold_align_pow2 fields ⟨0, 1⟩ ⟨0, by norm_num, rfl⟩ hflds
  have hsize_bound : (fields.foldl Alloc.cExtend ⟨0, 1⟩).size
      + (fields.foldl Alloc.cExtend ⟨0, 1⟩).align ≤ Alloc.USIZE := by
    simp only [Alloc.Layout.mk.injEq] at hbound
    omega
  have hpadeq := Alloc.padToAlign_eq _ kp hkp hpe hsize_bound
  refine ⟨?_, ?_, ?_, by decide, by decide⟩
  · simp only [Alloc.structLayout]
    have hbase : Alloc.fromSizeAlign 0 1 = some ⟨0, 1⟩ := by decide
    rw [hbase]
    simp only [Option.bind_eq_bind, Option.some_bind] at hfold ⊢
    rw [hfold]
    simp only [Option.some_bind]
    rw [hpadeq]
    rfl
  · simp only [Alloc.cStructLayout]
    exact Alloc.roundUp_mod _ _
  · have hdec : (fields.foldl Alloc.cExtend ⟨0, 1⟩).size
        = (fields.map Alloc.Layout.size).sum
          + (Alloc.cPaddingsFrom ⟨0, 1⟩ fields).sum := by
      simpa using Alloc.cFold_size_decomp fields ⟨0, 1⟩ hflds0
    have hle := Alloc.le_roundUp (fields.foldl Alloc.cExtend ⟨0, 1⟩).size _ halignpos
    simp only [Alloc.cStructLayout, Alloc.cPaddings, Alloc.cTrailingPad]
    omega

/-- Witness for C6 at the spec's own example: a struct of a `u8` field
followed by a `u32` field. -/
theorem C6_composite_guest_layout_witness :
    Alloc.structLayout ([Alloc.Layout.mk 1 1, Alloc.Layout.mk 4 4].map some)
        = some (Alloc.cStructLayout [Alloc.Layout.mk 1 1, Alloc.Layout.mk 4 4])
    ∧ (Alloc.cStructLayout [Alloc.Layout.mk 1 1, Alloc.Layout.mk 4 4]).size
        % (Alloc.cStructLayout [Alloc.Layout.mk 1 1, Alloc.Layout.mk 4 4]).align = 0
    ∧ (Alloc.cStructLayout [Alloc.Layout.mk 1 1, Alloc.Layout.mk 4 4]).size
        = ([Alloc.Layout.mk 1 1, Alloc.Layout.mk 4 4].map Alloc.Layout.size).sum
          + ((Alloc.cPaddings [Alloc.Layout.mk 1 1, Alloc.Layout.mk 4 4]).sum
            + Alloc.cTrailingPad [Alloc.Layout.mk 1 1, Alloc.Layout.mk 4 4])
    ∧ Alloc.structLayout [Alloc.numGuestLayout 1 1, Alloc.numGuestLayout 4 4]
        = some ⟨8, 4⟩
    ∧ (Alloc.extend ⟨1, 1⟩ ⟨4, 4⟩).map Prod.snd = some 4 :=
  C6_composite_guest_layout [⟨1, 1⟩, ⟨4, 4⟩]
    (by
      intro f hf
      simp only [List.mem_cons, List.not_mem_nil, or_false] at hf
      rcases hf with rfl | rfl
      · exact ⟨0, by norm_num, rfl⟩
      · exact ⟨2, by norm_num, rfl⟩)
    (by decide)

/-- **C9**: reading a `[T; N]` from guest memory (virtual or physical) fails
iff the read of any of the `N` elements fails; unlike the composite struct
read it does not short-circuit — with a recording read oracle, the trace shows
every one of the `N` element addresses is attempted even when an earlier
element read fails. -/
theorem C9_array_read_no_short_circuit {α : Type}
    (f : Nat → Except GuestReadFail α) (l : Alloc.Layout) (ptr N : Nat)
    (trace : List Nat) :
    ∃ r, Codec.arrayReadFromGuest (fun a s => (s ++ [a], f a)) (some l) ptr N trace
        = some (trace ++ (List.range N).map (fun i => ptr + Alloc.paddedSize l * i), r)
      ∧ (r = Except.error GuestReadFail.mk
          ↔ ∃ i < N,
              f (ptr + Alloc.paddedSize l * i) = Except.error GuestReadFail.mk) := by
  have hfold := Codec.recordReadFold (List.range N)
    (fun i => ptr + Alloc.paddedSize l * i) f trace []
  simp only [List.nil_append] at hfold
  simp only [Codec.arrayReadFromGuest, Option.map_some']
  rw [hfold]
  refine ⟨_, rfl, ?_⟩
  have hlen : ((List.range N).map (fun i => f (ptr + Alloc.paddedSize l * i))).length
      = N := by simp
  have hiff := Codec.filterMap_toOption_length_iff
    ((List.range N).map (fun i => f (ptr + Alloc.paddedSize l * i)))
  rw [hlen] at hiff
  by_cases hc : (((List.range N).map (fun i => f (ptr + Alloc.paddedSize l * i))).filterMap
      (fun r => r.toOption)).length = N
  · rw [if_pos hc]
    have hall := hiff.mp hc
    constructor
    · intro h
      exact absurd h (by simp)
    · rintro ⟨i, hi, hferr⟩
      exact absurd (hall _ (List.mem_map_of_mem _ (List.mem_range.mpr hi)) ) (by simp [hferr])
  · rw [if_neg hc]
    constructor
    · intro _
      by_contra hno
      push_neg at hno
      apply hc
      apply hiff.mpr
      intro r hr
      obtain ⟨i, hi, rfl⟩ := List.mem_map.mp hr
      exact hno i (List.mem_range.mp hi)
    · intro _
      rfl

/-- **C1** (code-bug evidence): the codec write path silently discards failed
memory transfers.  (1) A primitive `write_to_guest` against a transfer oracle
that always returns `MemTxError` still performs the transfer and returns
`Ok(())` — no guest-write failure is reported to the caller, contradicting the
claim.  (2) A two-field composite still writes each field in declaration
order at the computed offsets (and also returns `Ok` despite every transfer
failing).  (3) A field writer that does return `Err` (possible for user
`GuestType` impls) aborts the remaining field writes via `?`. -/
theorem C1_write_failure_silently_discarded :
    Codec.numWriteToGuest
        (fun p b (s : List (Nat × List Nat)) => (s ++ [(p, b)], MemRWStatus.MemTxError))
        Endian.Little 4 5 0x1000 []
      = ([(0x1000, [5, 0, 0, 0])], Except.ok ())
    ∧ Codec.structWriteToGuest
        [(⟨4, 4⟩, fun a s => Codec.numWriteToGuest
            (fun p b (s : List (Nat × List Nat)) => (s ++ [(p, b)], MemRWStatus.MemTxError))
            Endian.Little 4 7 a s),
         (⟨4, 4⟩, fun a s => Codec.numWriteToGuest
            (fun p b (s : List (Nat × List Nat)) => (s ++ [(p, b)], MemRWStatus.MemTxError))
            Endian.Little 4 9 a s)]
        0x1000 []
      = some ([(0x1000, [7, 0, 0, 0]), (0x1004, [9, 0, 0, 0])], Except.ok ())
    ∧ Codec.structWriteToGuest
        [(⟨4, 4⟩, fun a (s : List Nat) => (s ++ [a], Except.error GuestWriteFail.mk)),
         (⟨4, 4⟩, fun a s => (s ++ [a], Except.ok ()))]
        0x1000 []
      = some ([0x1000], Except.error GuestWriteFail.mk) := by
  refine ⟨by decide, by decide, by decide⟩


/-! ## PPP callback export sites (`callbacks/export.rs`)

`export_ppp_callback!` generates, per export site, a `CALLBACKS` list of
`(trampoline, context)` subscribers and a `trigger` function that maps the
call over every subscriber and folds the results with the return type's
`CallbackReturn` strategy.  A subscriber is modelled as a state transformer
`σ → σ × R` (the state records the side effects of the call, the `R` is the
value it returns). -/

namespace PPP

/-- `<cb_name>::trigger(args...)`: iterates over the current subscriber list in
order, invoking each with its stored context, and folds the returned values
starting from the fold default.  The iterator `map` is driven to completion by
`fold`, so every subscriber runs: there is no short-circuit. -/
def trigger {σ R F : Type} (callbacks : List (σ → σ × R))
    (foldDefault : F) (foldFn : F → R → F) (s : σ) : σ × F :=
  callbacks.foldl
    (fun acc cb =>
      let (s', ret) := cb acc.1
      (s', foldFn acc.2 ret))
    (s, foldDefault)

/-- `impl CallbackReturn for bool`: `fold_callback_return(folded, ret) = folded | ret`. -/
def boolFold (folded ret : Bool) : Bool :=
  folded || ret

/-- `<bool as CallbackReturn>::callback_fold_default()` = `bool::default()` = `false`. -/
def boolFoldDefault : Bool := false

/-- `impl CallbackReturn for $int`: keep the first nonzero folded value:
`if folded != 0 { folded } else { ret }`. -/
def intFold (folded ret : Int) : Int :=
  if folded != 0 then folded else ret

/-- `<$int as CallbackReturn>::callback_fold_default()` = `0`. -/
def intFoldDefault : Int := 0

/-- A test-double subscriber: appends its own index to the trace state (its
"side effect") and returns a fixed value.  Used to observe which subscribers a
`trigger` call invokes, and in which order. -/
def recordingSub {R : Type} (i : Nat) (r : R) : List Nat → List Nat × R :=
  fun trace => (trace ++ [i], r)

/-- The subscriber list after `n` subscriptions of recording test doubles, in
subscription order (`add_callback_with_context` pushes to the back of
`CALLBACKS`). -/
def recordingSubs {R : Type} (n : Nat) (f : Nat → R) :
    List (List Nat → List Nat × R) :=
  (List.range n).map (fun i => recordingSub i (f i))

/-- The integer fold strategy the spec describes: the first nonzero value in
the list of subscriber results, else zero. -/
def firstNonzero (rs : List Int) : Int :=
  (rs.find? (fun r => r != 0)).getD 0

theorem trigger_recording {R F : Type} (ids : List Nat) (f : Nat → R)
    (d : F) (foldFn : F → R → F) (s : List Nat) :
    trigger (ids.map fun i => recordingSub i (f i)) d foldFn s
      = (s ++ ids, (ids.map f).foldl foldFn d) := by
  induction ids generalizing d s with
  | nil => simp [trigger]
  | cons i rest ih =>
    simpa [trigger, recordingSub] using ih (foldFn d (f i)) (s ++ [i])

theorem foldl_boolFold (rs : List Bool) (b : Bool) :
    rs.foldl boolFold b = (b || rs.any id) := by
  induction rs generalizing b with
  | nil => simp
  | cons r rest ih => simp [boolFold, ih, Bool.or_assoc]

theorem firstNonzero_cons (r : Int) (rs : List Int) :
    firstNonzero (r :: rs) = if r = 0 then firstNonzero rs else r := by
  by_cases hr : r = 0 <;> simp [firstNonzero, hr]

theorem foldl_intFold (rs : List Int) (a : Int) :
    rs.foldl intFold a = if a ≠ 0 then a else firstNonzero rs := by
  induction rs generalizing a with
  | nil => by_cases ha : a = 0 <;> simp [ha, firstNonzero]
  | cons r rest ih =>
    by_cases ha : a = 0
    · by_cases hr : r = 0 <;> simp [intFold, ha, hr, ih, firstNonzero_cons]
    · simp [intFold, ha, ih]

end PPP

/-- **C2**: for every PPP export site, `trigger(args)` invokes every current
subscriber exactly once in subscription order without short-circuiting (the
trace of a list of recording test doubles is exactly the subscription order),
and returns the fold of their results by the declared return type's strategy:
logical OR with default `false` for a `bool` site, and the first nonzero value
(else zero) for an integer site. -/
theorem C2_ppp_trigger_fold (n : Nat) (fb : Nat → Bool) (fi : Nat → Int)
    (s : List Nat) :
    PPP.trigger (PPP.recordingSubs n fb) PPP.boolFoldDefault PPP.boolFold s
        = (s ++ List.range n, ((List.range n).map fb).any id)
    ∧ PPP.trigger (PPP.recordingSubs n fi) PPP.intFoldDefault PPP.intFold s
        = (s ++ List.range n, PPP.firstNonzero ((List.range n).map fi)) := by
  constructor
  · rw [PPP.recordingSubs, PPP.trigger_recording, PPP.foldl_boolFold]
    simp [PPP.boolFoldDefault]
  · rw [PPP.recordingSubs, PPP.trigger_recording, PPP.foldl_intFold]
    simp [PPP.intFoldDefault]

/-! ## Typed guest pointer (`guest_ptr.rs`)

`GuestPtr<T>` is a raw guest address plus a lazily-populated single-slot cache
(`OnceCell<Box<T>>`).  Guest reads/writes are oracle parameters: `readMem`
stands for `T::read_from_guest(cpu, ·)` and `writeMem` for
`T::write_to_guest(·, cpu, ·)`.  `target_ptr_t` is modelled at the 64-bit
pointer width, wrapping (release-mode semantics) made explicit. -/

def TARGET_PTR_MOD : Nat := 2 ^ 64

/-- `GuestPtr<T>`: `pointer: target_ptr_t` plus `guest_type: OnceCell<Box<T>>`. -/
structure GuestPtr (T : Type) where
  pointer : Nat
  guest_type : Option T
  deriving DecidableEq, Repr

/-- `GuestPtr::from(pointer)`: fresh pointer with an empty cache. -/
def GuestPtr.fromPtr (T : Type) (pointer : Nat) : GuestPtr T :=
  ⟨pointer, none⟩

/-- `GuestPtr::read(&self)`:
`guest_type.get_or_try_init(|| T::read_from_guest(cpu, pointer).map(Box::new))`.
Returns the new state, the result, and the number of guest memory transfers
issued.  On a failed init the `OnceCell` stays empty. -/
def GuestPtr.read {T : Type} (readMem : Nat → Except GuestReadFail T)
    (p : GuestPtr T) : GuestPtr T × Except GuestReadFail T × Nat :=
  match p.guest_type with
  | some v => (p, Except.ok v, 0)
  | none =>
    match readMem p.pointer with
    | Except.ok v => ({ p with guest_type := some v }, Except.ok v, 1)
    | Except.error e => (p, Except.error e, 1)

/-- `GuestPtr::clear_cache(&mut self)`: `self.guest_type = OnceCell::new()`. -/
def GuestPtr.clear_cache {T : Type} (p : GuestPtr T) : GuestPtr T :=
  { p with guest_type := none }

/-- `GuestPtr::get_cached(&self)`: `self.guest_type.get()`. -/
def GuestPtr.get_cached {T : Type} (p : GuestPtr T) : Option T :=
  p.guest_type

/-- `GuestPtr::update(&mut self)`: `self.clear_cache(); self.read().unwrap();`.
The middle component is `some e` when the `.unwrap()` panics because the fresh
read failed; the transfer count is the third component. -/
def GuestPtr.update {T : Type} (readMem : Nat → Except GuestReadFail T)
    (p : GuestPtr T) : GuestPtr T × Option GuestReadFail × Nat :=
  let q := p.clear_cache
  let (q', r, n) := q.read readMem
  (q', (match r with | Except.ok _ => none | Except.error e => some e), n)

/-- `GuestPtr::offset(&self, off)`:
`T::guest_size().expect("Attempted to offset an unsized GuestType")` (the
panic is modelled as `none`), then a new pointer at
`pointer + size * off` with a fresh empty cache.  `guest_size` abstracts
`T::guest_size()`. -/
def GuestPtr.offset {T : Type} (guest_size : Option Nat) (p : GuestPtr T)
    (off : Nat) : Option (GuestPtr T) :=
  guest_size.map fun size =>
    { pointer := (p.pointer + size * off % TARGET_PTR_MOD) % TARGET_PTR_MOD
      guest_type := none }

/-- `GuestPtr::offset_bytes(&self, bytes)`: raw address arithmetic with a
fresh empty cache; `T`'s size is not consulted. -/
def GuestPtr.offset_bytes {T : Type} (p : GuestPtr T) (bytes : Nat) :
    GuestPtr T :=
  { pointer := (p.pointer + bytes) % TARGET_PTR_MOD, guest_type := none }

/-- `GuestPtr::write(&mut self, func)`: if the cache is empty, populate it via
`self.read().unwrap()` (`none` in the second component models that panic on a
failed read); mutate the cached value in place with `func`; then flush it with
`inner.write_to_guest(cpu, self.pointer)` and return that flush result. -/
def GuestPtr.write {T : Type} (readMem : Nat → Except GuestReadFail T)
    (writeMem : T → Nat → Except GuestWriteFail Unit)
    (p : GuestPtr T) (func : T → T) :
    GuestPtr T × Option (Except GuestWriteFail Unit) :=
  match p.guest_type with
  | some v =>
    let v' := func v
    ({ p with guest_type := some v' }, some (writeMem v' p.pointer))
  | none =>
    match readMem p.pointer with
    | Except.error _ => (p, none)
    | Except.ok v =>
      let v' := func v
      ({ p with guest_type := some v' }, some (writeMem v' p.pointer))

/-- **C4**: `read()` populates the single-slot cache only if it is empty: when
the first `read()` succeeds with value `v`, a second `read()` without
intervening mutation issues zero further transfers and returns the same
cached value (so at most one transfer happens across both calls, the first
issuing at most one); `get_cached()` immediately after `clear_cache()` returns
nothing; and `update()` is `clear_cache()` followed by `read()` — same
resulting state, same transfer count, panicking exactly when that read
fails. -/
theorem C4_guest_ptr_cache {T : Type} (readMem : Nat → Except GuestReadFail T)
    (p : GuestPtr T) (v : T)
    (h : (p.read readMem).2.1 = Except.ok v) :
    ((p.read readMem).1.read readMem = ((p.read readMem).1, Except.ok v, 0)
      ∧ (p.read readMem).2.2 ≤ 1)
    ∧ (p.clear_cache).get_cached = none
    ∧ ((p.update readMem).1 = ((p.clear_cache).read readMem).1
      ∧ (p.update readMem).2.2 = ((p.clear_cache).read readMem).2.2
      ∧ ((p.update readMem).2.1 = none
          ↔ ∃ w, ((p.clear_cache).read readMem).2.1 = Except.ok w)) := by
  refine ⟨⟨?_, ?_⟩, rfl, ?_⟩
  · cases hp : p.guest_type with
    | some w =>
      have hw : w = v := by
        simp [GuestPtr.read, hp] at h
        exact h
      subst hw
      simp [GuestPtr.read, hp]
    | none =>
      cases hr : readMem p.pointer with
      | ok w =>
        have hw : w = v := by
          simp [GuestPtr.read, hp, hr] at h
          exact h
        subst hw
        simp [GuestPtr.read, hp, hr]
      | error e =>
        exfalso
        simp [GuestPtr.read, hp, hr] at h
  · cases hp : p.guest_type with
    | some w => simp [GuestPtr.read, hp]
    | none => cases hr : readMem p.pointer <;> simp [GuestPtr.read, hp, hr]
  · cases hr : readMem p.pointer with
    | ok w =>
      simp [GuestPtr.update, GuestPtr.read, GuestPtr.clear_cache, hr]
    | error e =>
      simp [GuestPtr.update, GuestPtr.read, GuestPtr.clear_cache, hr]

/-- Witness for C4 at a concrete pointer and read oracle. -/
theorem C4_guest_ptr_cache_witness :
    ((GuestPtr.fromPtr Nat 0x40).read (fun _ => Except.ok 42)).1.read
          (fun _ => Except.ok 42)
        = (((GuestPtr.fromPtr Nat 0x40).read (fun _ => Except.ok 42)).1,
            Except.ok 42, 0)
      ∧ ((GuestPtr.fromPtr Nat 0x40).read (fun _ => Except.ok 42)).2.2 ≤ 1 :=
  ((C4_guest_ptr_cache (fun _ => Except.ok 42) (GuestPtr.fromPtr Nat 0x40) 42
    (by decide)).1)

/-- **C5**: `write(f)` ensures a cached value exists (reading from the guest
when the cache is empty), mutates the cached value in place via `f`, then
flushes exactly the mutated value back to guest memory at the pointer's
address; the cache holds the mutated value afterwards regardless of the flush
result — in particular, if the flush fails the cache still retains the
mutated, not-yet-flushed value. -/
theorem C5_guest_ptr_write {T : Type} (readMem : Nat → Except GuestReadFail T)
    (writeMem : T → Nat → Except GuestWriteFail Unit)
    (p : GuestPtr T) (f : T → T) (v : T)
    (h : p.guest_type = some v
        ∨ (p.guest_type = none ∧ readMem p.pointer = Except.ok v)) :
    p.write readMem writeMem f
        = ({ p with guest_type := some (f v) }, some (writeMem (f v) p.pointer))
    ∧ ∀ e, writeMem (f v) p.pointer = Except.error e
        → (p.write readMem writeMem f).1.guest_type = some (f v) := by
  have hmain : p.write readMem writeMem f
      = ({ p with guest_type := some (f v) }, some (writeMem (f v) p.pointer)) := by
    rcases h with hc | ⟨hc, hr⟩
    · simp [GuestPtr.write, hc]
    · simp [GuestPtr.write, hc, hr]
  exact ⟨hmain, fun e _ => by rw [hmain]⟩

/-- Witness for C5: a failing flush still leaves the mutated value cached. -/
theorem C5_guest_ptr_write_witness :
    (GuestPtr.fromPtr Nat 0x80).write (fun _ => Except.ok 10)
          (fun _ _ => Except.error GuestWriteFail.mk) (fun x => x + 1)
        = ({ (GuestPtr.fromPtr Nat 0x80) with guest_type := some 11 },
            some (Except.error GuestWriteFail.mk))
      ∧ ∀ e, (Except.error GuestWriteFail.mk : Except GuestWriteFail Unit)
            = Except.error e
          → ((GuestPtr.fromPtr Nat 0x80).write (fun _ => Except.ok 10)
              (fun _ _ => Except.error GuestWriteFail.mk)
              (fun x => x + 1)).1.guest_type = some 11 :=
  C5_guest_ptr_write (fun _ => Except.ok 10)
    (fun _ _ => Except.error GuestWriteFail.mk)
    (GuestPtr.fromPtr Nat 0x80) (fun x => x + 1) 10 (Or.inr ⟨rfl, rfl⟩)

/-- **C8**: when `T` has a fixed guest size `s`, `offset(n)` returns a new
pointer with an empty cache at address `pointer + n * s`; when
`T::guest_size()` is `None`, `offset(n)` panics; `offset_bytes(n)` returns a
new pointer with an empty cache at `pointer + n`, with no dependency on `T`'s
size (it takes no size argument at all). -/
theorem C8_guest_ptr_offset {T : Type} (p : GuestPtr T) (s n : Nat)
    (h1 : p.pointer + s * n < TARGET_PTR_MOD)
    (h2 : p.pointer + n < TARGET_PTR_MOD) :
    p.offset (some s) n = some ⟨p.pointer + s * n, none⟩
    ∧ p.offset none n = none
    ∧ p.offset_bytes n = ⟨p.pointer + n, none⟩ := by
  refine ⟨?_, rfl, ?_⟩
  · have hsn : s * n < TARGET_PTR_MOD := by omega
    simp [GuestPtr.offset, Nat.mod_eq_of_lt hsn, Nat.mod_eq_of_lt h1]
  · simp [GuestPtr.offset_bytes, Nat.mod_eq_of_lt h2]

/-- Witness for C8 at a concrete pointer, size 4, offset 3. -/
theorem C8_guest_ptr_offset_witness :
    (GuestPtr.fromPtr Nat 0x100).offset (some 4) 3
        = some ⟨0x100 + 4 * 3, none⟩
    ∧ (GuestPtr.fromPtr Nat 0x100).offset none 3 = none
    ∧ (GuestPtr.fromPtr Nat 0x100).offset_bytes 3 = ⟨0x100 + 3, none⟩ :=
  C8_guest_ptr_offset (GuestPtr.fromPtr Nat 0x100) 4 3
    (by norm_num [TARGET_PTR_MOD, GuestPtr.fromPtr])
    (by norm_num [TARGET_PTR_MOD, GuestPtr.fromPtr])

/-! ## Closure callback registry (`callbacks/closure.rs`)

The `CALLBACKS: RwLock<HashMap<u64, ClosureCallback>>` registry is modelled as
an association list with unique keys (the `HashMap` invariant); raw pointers
and `extern "C"` function pointers are opaque numeric identities.  Native
registration calls and closure drops are recorded as events. -/

/-- `ClosureCallback` (closure.rs): context pointer, callback kind tag,
trampoline and drop function, all as opaque identities. -/
structure ClosureCallback where
  closure_ref : Nat
  cb_kind : Nat
  trampoline : Nat
  drop_fn : Nat
  deriving DecidableEq, Repr

/-- Observable effects of the closure registry: a
`panda_register_callback_with_context(plugin, kind, trampoline, context)` call
or a `(drop_fn)(closure_ref)` invocation from `ClosureCallback`'s `Drop`. -/
inductive CallbackEvent where
  | registerWithContext (kind trampoline context : Nat)
  | dropClosure (drop_fn closure_ref : Nat)
  deriving DecidableEq, Repr

/-- `HashMap::insert(slot, cb)`: replace the value at an existing key in
place returning the previous value, else append a fresh entry. -/
def hashMapInsert {α : Type} : List (Nat × α) → Nat → α → List (Nat × α) × Option α
  | [], slot, cb => ([(slot, cb)], none)
  | (k, v) :: rest, slot, cb =>
    if k = slot then ((k, cb) :: rest, some v)
    else
      let (m', old) := hashMapInsert rest slot cb
      ((k, v) :: m', old)

/-- `HashMap::get(&slot)` / `get_mut(&slot)` (first matching key). -/
def lookupSlot {α : Type} : List (Nat × α) → Nat → Option α
  | [], _ => none
  | (k, v) :: rest, slot => if k = slot then some v else lookupSlot rest slot

/-- Number of registry entries for a slot. -/
def countSlot {α : Type} (m : List (Nat × α)) (slot : Nat) : Nat :=
  (m.filter (fun e => e.1 == slot)).length

/-- The `HashMap` representation invariant: one entry per key. -/
def nodupKeys {α : Type} (m : List (Nat × α)) : Prop :=
  (m.map Prod.fst).Nodup

/-- `install_closure_callback(id, callback)` (closure.rs): calls
`panda_register_callback_with_context(get_plugin_ref(), cb_kind, trampoline,
closure_ref)`, then `CALLBACKS.write().unwrap().insert(id, callback)`; the
`Option<ClosureCallback>` returned by `insert` is dropped immediately, which
runs the replaced binding's `Drop` impl — `(drop_fn)(closure_ref)` — exactly
once. -/
def install_closure_callback (m : List (Nat × ClosureCallback)) (slot : Nat)
    (cb : ClosureCallback) : List (Nat × ClosureCallback) × List CallbackEvent :=
  let (m', old) := hashMapInsert m slot cb
  (m', CallbackEvent.registerWithContext cb.cb_kind cb.trampoline cb.closure_ref
    :: (match old with
        | some o => [CallbackEvent.dropClosure o.drop_fn o.closure_ref]
        | none => []))

theorem hashMapInsert_lookup {α : Type} (m : List (Nat × α)) (slot : Nat) (cb : α) :
    lookupSlot (hashMapInsert m slot cb).1 slot = some cb := by
  induction m with
  | nil => simp [hashMapInsert, lookupSlot]
  | cons e rest ih =>
    obtain ⟨k, v⟩ := e
    by_cases hk : k = slot <;> simp [hashMapInsert, lookupSlot, hk, ih]

theorem hashMapInsert_old {α : Type} (m : List (Nat × α)) (slot : Nat) (cb : α) :
    (hashMapInsert m slot cb).2 = lookupSlot m slot := by
  induction m with
  | nil => simp [hashMapInsert, lookupSlot]
  | cons e rest ih =>
    obtain ⟨k, v⟩ := e
    by_cases hk : k = slot <;> simp [hashMapInsert, lookupSlot, hk, ih]

theorem countSlot_eq_zero_of_not_mem {α : Type} (m : List (Nat × α)) (slot : Nat)
    (h : slot ∉ m.map Prod.fst) : countSlot m slot = 0 := by
  induction m with
  | nil => simp [countSlot]
  | cons e rest ih =>
    obtain ⟨k, v⟩ := e
    simp only [List.map_cons, List.mem_cons] at h
    push_neg at h
    have hk : ¬(k == slot) = true := by simpa using fun he => h.1 he.symm
    simp only [countSlot, List.filter_cons] at *
    simp [hk, ih h.2]

theorem hashMapInsert_keys {α : Type} (m : List (Nat × α)) (slot : Nat) (cb : α) :
    (hashMapInsert m slot cb).1.map Prod.fst
      = if slot ∈ m.map Prod.fst then m.map Prod.fst
        else m.map Prod.fst ++ [slot] := by
  induction m with
  | nil => simp [hashMapInsert]
  | cons e rest ih =>
    obtain ⟨k, v⟩ := e
    by_cases hk : k = slot
    · simp [hashMapInsert, hk]
    · simp only [hashMapInsert, if_neg hk, List.map_cons, List.mem_cons]
      rw [ih]
      by_cases hm : slot ∈ rest.map Prod.fst
      · simp [hm, hk]
      · have hsk : ¬(slot = k) := fun h => hk h.symm
        simp [hm, hsk]

theorem hashMapInsert_nodup {α : Type} (m : List (Nat × α)) (slot : Nat) (cb : α)
    (h : nodupKeys m) : nodupKeys (hashMapInsert m slot cb).1 := by
  unfold nodupKeys at *
  rw [hashMapInsert_keys]
  by_cases hm : slot ∈ m.map Prod.fst
  · simpa [hm]
  · have hdisj : (m.map Prod.fst).Disjoint [slot] := by
      intro a ha hb
      simp only [List.mem_singleton] at hb
      subst hb
      exact hm ha
    simpa [hm] using List.Nodup.append h (List.nodup_singleton slot) hdisj

theorem hashMapInsert_count_one {α : Type} (m : List (Nat × α)) (slot : Nat) (cb : α)
    (h : nodupKeys m) : countSlot (hashMapInsert m slot cb).1 slot = 1 := by
  induction m with
  | nil => simp [hashMapInsert, countSlot]
  | cons e rest ih =>
    obtain ⟨k, v⟩ := e
    unfold nodupKeys at h
    simp only [List.map_cons, List.nodup_cons] at h
    by_cases hk : k = slot
    · subst hk
      have hzero : countSlot rest k = 0 := countSlot_eq_zero_of_not_mem rest k h.1
      simp only [countSlot] at hzero
      simp only [hashMapInsert, if_pos rfl, countSlot, List.filter_cons,
        beq_self_eq_true, if_true]
      simp [hzero]
    · have hrec := ih h.2
      simp only [countSlot] at hrec ⊢
      have hkb : ((k, v).1 == slot) = false := by simpa using hk
      simp only [hashMapInsert, if_neg hk]
      simp [List.filter_cons, hkb, hrec]

/-- **C3**: installing a closure into a slot that already holds a binding
replaces the old binding in the registry, invokes the old binding's stored
drop function exactly once (the event trace is exactly one native register
followed by exactly one drop of the old context), and leaves exactly one
binding for that slot; the at-most-one-binding-per-slot invariant of the
registry is preserved by installation. -/
theorem C3_closure_slot_replacement (m : List (Nat × ClosureCallback))
    (slot : Nat) (old cb : ClosureCallback)
    (hnodup : nodupKeys m) (hold : lookupSlot m slot = some old) :
    (install_closure_callback m slot cb).2
        = [CallbackEvent.registerWithContext cb.cb_kind cb.trampoline cb.closure_ref,
           CallbackEvent.dropClosure old.drop_fn old.closure_ref]
    ∧ lookupSlot (install_closure_callback m slot cb).1 slot = some cb
    ∧ countSlot (install_closure_callback m slot cb).1 slot = 1
    ∧ nodupKeys (install_closure_callback m slot cb).1 := by
  have hone := hashMapInsert_count_one m slot cb hnodup
  have hno := hashMapInsert_nodup m slot cb hnodup
  have hlk := hashMapInsert_lookup m slot cb
  have hod := hashMapInsert_old m slot cb
  rw [hold] at hod
  refine ⟨?_, ?_, ?_, ?_⟩ <;>
    simp_all [install_closure_callback]

/-- Witness for C3: replacing the binding in a two-slot registry. -/
theorem C3_closure_slot_replacement_witness :
    (install_closure_callback
        [(0, ⟨1, 2, 3, 4⟩), (7, ⟨5, 6, 7, 8⟩)] 7 ⟨10, 6, 7, 12⟩).2
        = [CallbackEvent.registerWithContext 6 7 10,
           CallbackEvent.dropClosure 8 5]
    ∧ lookupSlot (install_closure_callback
        [(0, ⟨1, 2, 3, 4⟩), (7, ⟨5, 6, 7, 8⟩)] 7 ⟨10, 6, 7, 12⟩).1 7
        = some ⟨10, 6, 7, 12⟩
    ∧ countSlot (install_closure_callback
        [(0, ⟨1, 2, 3, 4⟩), (7, ⟨5, 6, 7, 8⟩)] 7 ⟨10, 6, 7, 12⟩).1 7 = 1
    ∧ nodupKeys (install_closure_callback
        [(0, ⟨1, 2, 3, 4⟩), (7, ⟨5, 6, 7, 8⟩)] 7 ⟨10, 6, 7, 12⟩).1 :=
  C3_closure_slot_replacement [(0, ⟨1, 2, 3, 4⟩), (7, ⟨5, 6, 7, 8⟩)] 7
    ⟨5, 6, 7, 8⟩ ⟨10, 6, 7, 12⟩ (by simp [nodupKeys]) (by decide)

/-! ## PPP closure registry (`callbacks/ppp_closures.rs`)

`CALLBACKS: Mutex<HashMap<u64, InternalPppClosureCallback>>`; each binding
carries per-site `enable`/`disable`/`drop` function pointers (opaque numeric
identities here) and an `is_enabled` flag.  Calls into the export site's
native add/remove functions are recorded as events. -/

/-- `InternalPppClosureCallback` (ppp_closures.rs). -/
structure InternalPppClosureCallback where
  closure_ref : Nat
  enable : Nat
  disable : Nat
  drop_fn : Nat
  is_enabled : Bool
  deriving DecidableEq, Repr

/-- A native `(callback.enable)(closure_ref)` or
`(callback.disable)(closure_ref)` invocation. -/
inductive PppNativeEvent where
  | enableCall (f closure_ref : Nat)
  | disableCall (f closure_ref : Nat)
  deriving DecidableEq, Repr

/-- In-place mutation through `HashMap::get_mut` (first matching key). -/
def updateSlot {α : Type} : List (Nat × α) → Nat → (α → α) → List (Nat × α)
  | [], _, _ => []
  | (k, v) :: rest, slot, f =>
    if k = slot then (k, f v) :: rest else (k, v) :: updateSlot rest slot f

/-- `PppCallback::enable(&self)`: look up the slot's binding (no-op when
empty); if the binding is currently disabled, call the site's native add
function once and set `is_enabled = true`; otherwise do nothing. -/
def pppEnable (m : List (Nat × InternalPppClosureCallback)) (slot : Nat) :
    List (Nat × InternalPppClosureCallback) × List PppNativeEvent :=
  match lookupSlot m slot with
  | none => (m, [])
  | some cb =>
    if !cb.is_enabled then
      (updateSlot m slot (fun c => { c with is_enabled := true }),
        [PppNativeEvent.enableCall cb.enable cb.closure_ref])
    else (m, [])

/-- `PppCallback::disable(&self)`: dual to `enable`. -/
def pppDisable (m : List (Nat × InternalPppClosureCallback)) (slot : Nat) :
    List (Nat × InternalPppClosureCallback) × List PppNativeEvent :=
  match lookupSlot m slot with
  | none => (m, [])
  | some cb =>
    if cb.is_enabled then
      (updateSlot m slot (fun c => { c with is_enabled := false }),
        [PppNativeEvent.disableCall cb.disable cb.closure_ref])
    else (m, [])

/-- `__internal_install_ppp_closure_callback`: calls the site's native add
function, marks the binding enabled, and inserts it. -/
def installPppClosureCallback (m : List (Nat × InternalPppClosureCallback))
    (slot : Nat) (cb : InternalPppClosureCallback) :
    List (Nat × InternalPppClosureCallback) × List PppNativeEvent :=
  ((hashMapInsert m slot { cb with is_enabled := true }).1,
    [PppNativeEvent.enableCall cb.enable cb.closure_ref])

theorem lookupSlot_updateSlot {α : Type} (m : List (Nat × α)) (slot : Nat)
    (f : α → α) :
    lookupSlot (updateSlot m slot f) slot = (lookupSlot m slot).map f := by
  induction m with
  | nil => simp [updateSlot, lookupSlot]
  | cons e rest ih =>
    obtain ⟨k, v⟩ := e
    by_cases hk : k = slot <;> simp [updateSlot, lookupSlot, hk, ih]

theorem pppEnable_none (m : List (Nat × InternalPppClosureCallback)) (slot : Nat)
    (h : lookupSlot m slot = none) : pppEnable m slot = (m, []) := by
  simp [pppEnable, h]

theorem pppEnable_disabled (m : List (Nat × InternalPppClosureCallback))
    (slot : Nat) (cb : InternalPppClosureCallback)
    (h : lookupSlot m slot = some cb) (hd : cb.is_enabled = false) :
    pppEnable m slot
      = (updateSlot m slot (fun c => { c with is_enabled := true }),
          [PppNativeEvent.enableCall cb.enable cb.closure_ref]) := by
  simp [pppEnable, h, hd]

theorem pppEnable_enabled (m : List (Nat × InternalPppClosureCallback))
    (slot : Nat) (cb : InternalPppClosureCallback)
    (h : lookupSlot m slot = some cb) (he : cb.is_enabled = true) :
    pppEnable m slot = (m, []) := by
  simp [pppEnable, h, he]

theorem pppDisable_none (m : List (Nat × InternalPppClosureCallback)) (slot : Nat)
    (h : lookupSlot m slot = none) : pppDisable m slot = (m, []) := by
  simp [pppDisable, h]

theorem pppDisable_enabled (m : List (Nat × InternalPppClosureCallback))
    (slot : Nat) (cb : InternalPppClosureCallback)
    (h : lookupSlot m slot = some cb) (he : cb.is_enabled = true) :
    pppDisable m slot
      = (updateSlot m slot (fun c => { c with is_enabled := false }),
          [PppNativeEvent.disableCall cb.disable cb.closure_ref]) := by
  simp [pppDisable, h, he]

theorem pppDisable_disabled (m : List (Nat × InternalPppClosureCallback))
    (slot : Nat) (cb : InternalPppClosureCallback)
    (h : lookupSlot m slot = some cb) (hd : cb.is_enabled = false) :
    pppDisable m slot = (m, []) := by
  simp [pppDisable, h, hd]

/-- **C10**: `enable()`/`disable()` on a `PppCallback` slot are idempotent
with respect to the native side.  Enabling a disabled binding performs
exactly one native add call and flips the binding's `is_enabled` flag;
enabling again performs no native call and leaves the registry unchanged;
disabling then performs exactly one native remove, and a second disable is
again a no-op; on a slot with no binding both operations do nothing. -/
theorem C10_ppp_enable_disable_idempotent
    (m : List (Nat × InternalPppClosureCallback)) (slot : Nat)
    (cb : InternalPppClosureCallback)
    (hcb : lookupSlot m slot = some cb) (hdis : cb.is_enabled = false) :
    pppEnable m slot
        = (updateSlot m slot (fun c => { c with is_enabled := true }),
            [PppNativeEvent.enableCall cb.enable cb.closure_ref])
    ∧ pppEnable (pppEnable m slot).1 slot = ((pppEnable m slot).1, [])
    ∧ (pppDisable (pppEnable m slot).1 slot).2
        = [PppNativeEvent.disableCall cb.disable cb.closure_ref]
    ∧ pppDisable (pppDisable (pppEnable m slot).1 slot).1 slot
        = ((pppDisable (pppEnable m slot).1 slot).1, [])
    ∧ ∀ (m' : List (Nat × InternalPppClosureCallback)) (s' : Nat),
        lookupSlot m' s' = none
          → pppEnable m' s' = (m', []) ∧ pppDisable m' s' = (m', []) := by
  have h1 := pppEnable_disabled m slot cb hcb hdis
  have hlk1 : lookupSlot (pppEnable m slot).1 slot
      = some { cb with is_enabled := true } := by
    rw [h1, lookupSlot_updateSlot, hcb]
    rfl
  have h2 := pppEnable_enabled _ slot _ hlk1 rfl
  have h3 := pppDisable_enabled _ slot _ hlk1 rfl
  have hlk2 : lookupSlot (pppDisable (pppEnable m slot).1 slot).1 slot
      = some { cb with is_enabled := false } := by
    rw [h3, lookupSlot_updateSlot, hlk1]
    rfl
  have h4 := pppDisable_disabled _ slot _ hlk2 rfl
  refine ⟨h1, h2, by rw [h3], h4, ?_⟩
  intro m' s' hnone
  exact ⟨pppEnable_none m' s' hnone, pppDisable_none m' s' hnone⟩

/-- Witness for C10 on a singleton registry holding a disabled binding. -/
theorem C10_ppp_enable_disable_idempotent_witness :
    pppEnable [(3, ⟨20, 21, 22, 23, false⟩)] 3
        = (updateSlot [(3, ⟨20, 21, 22, 23, false⟩)] 3
            (fun c => { c with is_enabled := true }),
            [PppNativeEvent.enableCall 21 20])
    ∧ pppEnable (pppEnable [(3, ⟨20, 21, 22, 23, false⟩)] 3).1 3
        = ((pppEnable [(3, ⟨20, 21, 22, 23, false⟩)] 3).1, [])
    ∧ (pppDisable (pppEnable [(3, ⟨20, 21, 22, 23, false⟩)] 3).1 3).2
        = [PppNativeEvent.disableCall 22 20]
    ∧ pppDisable
          (pppDisable (pppEnable [(3, ⟨20, 21, 22, 23, false⟩)] 3).1 3).1 3
        = ((pppDisable (pppEnable [(3, ⟨20, 21, 22, 23, false⟩)] 3).1 3).1, [])
    ∧ ∀ (m' : List (Nat × InternalPppClosureCallback)) (s' : Nat),
        lookupSlot m' s' = none
          → pppEnable m' s' = (m', []) ∧ pppDisable m' s' = (m', []) :=
  C10_ppp_enable_disable_idempotent [(3, ⟨20, 21, 22, 23, false⟩)] 3
    ⟨20, 21, 22, 23, false⟩ (by decide) rfl

/-! ## Syscall injection engine (`syscall_injection.rs`, `pinned_queue.rs`)

Per guest thread, `INJECTORS` maps the `ThreadId` to a `PinnedQueue` of
injector futures; `PinnedQueue` is a `Vec` whose `current()` is index 0,
`pop()` is `remove(0)` and `push_future` pushes to the back — a FIFO.  An
injector future is abstracted to its observable syscall behaviour: the list
of syscall numbers it still intends to inject.  Each poll of the future
either installs the next syscall into the guest registers and returns
`Poll::Pending` with `WAITING_FOR_SYSCALL` set (modelled: the head of
`syscalls` is emitted as an event), or — once `syscalls` is empty — either
resolves (`Poll::Ready`) or has bailed (`INJECTOR_BAIL`); the poll loop pops
the queue head in exactly those two cases
(`matches!(status, Poll::Ready(_)) || INJECTOR_BAIL.swap(false)`). -/

/-- An injector queued for one guest thread: an identity and the syscall
numbers its future has yet to inject. -/
structure Injector where
  id : Nat
  syscalls : List Nat
  deriving DecidableEq, Repr

/-- One firing of the shared `on_all_sys_enter` callback for this thread's
queue (`poll_injectors`): completed/bailed injectors at the front are popped
(`injectors.pop()`) and polling continues with the next; the first injector
with work issues its next syscall and the loop stops (`Poll::Pending` while
waiting on a syscall, returning `false`); when the queue drains the thread's
entry is removed and all injectors are done (`true`). Returns (the issued
syscall event, if any, as (injector id, syscall number); the remaining queue;
the "all injectors finished" flag). -/
def pollInjectors : List Injector → Option (Nat × Nat) × List Injector × Bool
  | [] => (none, [], true)
  | inj :: rest =>
    match inj.syscalls with
    | [] => pollInjectors rest
    | s :: ss => (some (inj.id, s), { inj with syscalls := ss } :: rest, false)

/-- `run_injector`'s queuing step:
`INJECTORS.entry(thread_id).or_default().push_future(..)` pushes the new
injector to the BACK of the thread's queue (`Vec::push`). -/
def runInjector (q : List Injector) (inj : Injector) : List Injector :=
  q ++ [inj]

def queueMeasure (q : List Injector) : Nat :=
  (q.map (fun i => i.syscalls.length + 1)).sum

theorem pollInjectors_measure (q : List Injector) (ev : Nat × Nat)
    (q' : List Injector) (b : Bool)
    (h : pollInjectors q = (some ev, q', b)) :
    queueMeasure q' < queueMeasure q := by
  induction q with
  | nil => simp [pollInjectors] at h
  | cons i rest ih =>
    cases hs : i.syscalls with
    | nil =>
      rw [pollInjectors, hs] at h
      have hrec := ih h
      simp only [queueMeasure, List.map_cons, List.sum_cons] at *
      omega
    | cons s ss =>
      rw [pollInjectors, hs] at h
      simp only [Prod.mk.injEq, Option.some.injEq] at h
      obtain ⟨h1, h2, h3⟩ := h
      subst h2
      simp only [queueMeasure, List.map_cons, List.sum_cons, hs, List.length_cons]
      omega

/-- The guest-driven run to completion: the syscall-enter callback re-fires
(after each injected syscall returns and `restart_syscall` re-enters) until
`poll_injectors` reports every injector finished; the trace of issued
syscalls is collected in order. -/
def runAll (q : List Injector) : List (Nat × Nat) :=
  match h : pollInjectors q with
  | (none, _, _) => []
  | (some ev, q', _) => ev :: runAll q'
termination_by queueMeasure q
decreasing_by exact pollInjectors_measure _ _ _ _ h

theorem runAll_nil : runAll [] = [] := by
  rw [runAll]
  split <;> simp_all [pollInjectors]

theorem runAll_cons_empty (i : Nat) (rest : List Injector) :
    runAll (⟨i, []⟩ :: rest) = runAll rest := by
  rw [runAll, runAll]
  have h : pollInjectors ((⟨i, []⟩ : Injector) :: rest) = pollInjectors rest := by
    rw [pollInjectors]
  rw [h]

theorem runAll_cons_syscall (i s : Nat) (ss : List Nat) (rest : List Injector) :
    runAll (⟨i, s :: ss⟩ :: rest) = (i, s) :: runAll (⟨i, ss⟩ :: rest) := by
  conv_lhs => rw [runAll]
  split
  · simp_all [pollInjectors]
  · rename_i heq
    simp only [pollInjectors] at heq
    simp only [Prod.mk.injEq, Option.some.injEq] at heq
    obtain ⟨h1, h2, _⟩ := heq
    subst h1
    subst h2
    rfl

theorem runAll_eq_flatMap (q : List Injector) :
    runAll q = q.flatMap (fun i => i.syscalls.map (fun s => (i.id, s))) := by
  induction q with
  | nil => simpa using runAll_nil
  | cons i rest ih =>
    obtain ⟨iid, ss⟩ := i
    induction ss with
    | nil =>
      rw [runAll_cons_empty]
      simpa using ih
    | cons s ss' ihs =>
      rw [runAll_cons_syscall]
      simp only [List.flatMap_cons, List.map_cons, List.cons_append] at ihs ⊢
      rw [ihs]

theorem pollInjectors_append (q : List Injector) (b : Injector) (ev : Nat × Nat)
    (q' : List Injector)
    (h : pollInjectors q = (some ev, q', false)) :
    pollInjectors (q ++ [b]) = (some ev, q' ++ [b], false) := by
  induction q with
  | nil => simp [pollInjectors] at h
  | cons i rest ih =>
    cases hs : i.syscalls with
    | nil =>
      rw [pollInjectors, hs] at h
      rw [List.cons_append, pollInjectors, hs]
      exact ih h
    | cons s ss =>
      rw [pollInjectors, hs] at h
      simp only [Prod.mk.injEq, Option.some.injEq] at h
      obtain ⟨h1, h2, _⟩ := h
      subst h1 h2
      rw [List.cons_append, pollInjectors, hs]
      simp

/-- One `poll_injectors` invocation splits the queue into a popped prefix —
every element of which had no remaining work, i.e. its future resolves or has
bailed — and an untouched remainder whose head (if any) merely issues its next
syscall while staying at the front. -/
theorem pollInjectors_pop_resolved (q : List Injector) :
    ∃ done rest, q = done ++ rest
      ∧ (∀ i ∈ done, i.syscalls = [])
      ∧ ((rest = [] ∧ pollInjectors q = (none, [], true))
        ∨ ∃ i s ss tl, rest = (⟨i, s :: ss⟩ : Injector) :: tl
            ∧ pollInjectors q = (some (i, s), (⟨i, ss⟩ : Injector) :: tl, false)) := by
  induction q with
  | nil => exact ⟨[], [], rfl, by simp, Or.inl ⟨rfl, rfl⟩⟩
  | cons inj r ih =>
    obtain ⟨iid, ss⟩ := inj
    cases ss with
    | nil =>
      obtain ⟨done, rest, hsplit, hdone, hres⟩ := ih
      refine ⟨(⟨iid, []⟩ : Injector) :: done, rest, by simp [hsplit], ?_, ?_⟩
      · intro i hi
        rcases List.mem_cons.mp hi with rfl | hi'
        · rfl
        · exact hdone i hi'
      · have hpoll : pollInjectors ((⟨iid, []⟩ : Injector) :: r) = pollInjectors r := by
          rw [pollInjectors]
        rcases hres with ⟨h1, h2⟩ | ⟨i, s, ss', tl, h1, h2⟩
        · exact Or.inl ⟨h1, by rw [hpoll]; exact h2⟩
        · exact Or.inr ⟨i, s, ss', tl, h1, by rw [hpoll]; exact h2⟩
    | cons s ss' =>
      exact ⟨[], (⟨iid, s :: ss'⟩ : Injector) :: r, by simp, by simp,
        Or.inr ⟨iid, s, ss', r, rfl, by rw [pollInjectors]⟩⟩

/-- **C7**: per-thread injectors run strictly in submission order.  Queuing
injectors `A` then `B` for the same thread yields a syscall trace in which
every injected syscall of `A` (in `A`'s internal order) is observed strictly
before any syscall of `B`; `run_injector` while a queue is non-empty pushes
to the back, leaving the currently running front injector in place, and a poll
of the extended queue issues the same event as before (no preemption); and a
poll pops injectors from the front only when their futures have resolved or
bailed (the popped prefix has no remaining syscalls; a head with remaining
work stays at the front). -/
theorem C7_injector_fifo (A B : Injector) (qs : List Injector)
    (q q' : List Injector) (b : Injector) (ev : Nat × Nat)
    (hq : q ≠ []) (hpoll : pollInjectors q = (some ev, q', false)) :
    runAll (A :: B :: qs)
        = A.syscalls.map (fun s => (A.id, s))
          ++ (B.syscalls.map (fun s => (B.id, s))
            ++ qs.flatMap (fun i => i.syscalls.map (fun s => (i.id, s))))
    ∧ runInjector q b = q ++ [b]
    ∧ (runInjector q b).head? = q.head?
    ∧ pollInjectors (runInjector q b) = (some ev, q' ++ [b], false)
    ∧ ∃ done rest, q = done ++ rest
        ∧ (∀ i ∈ done, i.syscalls = [])
        ∧ ((rest = [] ∧ pollInjectors q = (none, [], true))
          ∨ ∃ i s ss tl, rest = (⟨i, s :: ss⟩ : Injector) :: tl
              ∧ pollInjectors q = (some (i, s), (⟨i, ss⟩ : Injector) :: tl, false)) := by
  refine ⟨?_, rfl, ?_, ?_, pollInjectors_pop_resolved q⟩
  · rw [runAll_eq_flatMap]
    simp
  · cases q with
    | nil => exact absurd rfl hq
    | cons i rest => simp [runInjector]
  · exact pollInjectors_append q b ev q' hpoll

/-- Witness for C7 at the spec's own test: injector `A` (id 1) performs two
syscalls, injector `B` (id 2) one; the observed trace is all of `A`'s
syscalls, in order, strictly before `B`'s. -/
theorem C7_injector_fifo_witness :
    runAll ((⟨1, [11, 12]⟩ : Injector) :: (⟨2, [21]⟩ : Injector) :: [])
        = ((⟨1, [11, 12]⟩ : Injector).syscalls.map (fun s => (1, s))
          ++ (((⟨2, [21]⟩ : Injector).syscalls.map (fun s => (2, s)))
            ++ ([] : List Injector).flatMap
                (fun i => i.syscalls.map (fun s => (i.id, s)))))
    ∧ runInjector [(⟨1, [11, 12]⟩ : Injector)] ⟨2, [21]⟩
        = [(⟨1, [11, 12]⟩ : Injector)] ++ [⟨2, [21]⟩]
    ∧ (runInjector [(⟨1, [11, 12]⟩ : Injector)] ⟨2, [21]⟩).head?
        = [(⟨1, [11, 12]⟩ : Injector)].head?
    ∧ pollInjectors (runInjector [(⟨1, [11, 12]⟩ : Injector)] ⟨2, [21]⟩)
        = (some (1, 11), (⟨1, [12]⟩ : Injector) :: [⟨2, [21]⟩], false)
    ∧ ∃ done rest, [(⟨1, [11, 12]⟩ : Injector)] = done ++ rest
        ∧ (∀ i ∈ done, i.syscalls = [])
        ∧ ((rest = []
              ∧ pollInjectors [(⟨1, [11, 12]⟩ : Injector)] = (none, [], true))
          ∨ ∃ i s ss tl, rest = (⟨i, s :: ss⟩ : Injector) :: tl
              ∧ pollInjectors [(⟨1, [11, 12]⟩ : Injector)]
                  = (some (i, s), (⟨i, ss⟩ : Injector) :: tl, false)) := by
  have h := C7_injector_fifo ⟨1, [11, 12]⟩ ⟨2, [21]⟩ []
    [(⟨1, [11, 12]⟩ : Injector)] [(⟨1, [12]⟩ : Injector)] ⟨2, [21]⟩ (1, 11)
    (by decide) (by decide)
  simpa using h

end PandaRs
